import Mathlib

/-!
Verification of the `Machine` statechart engine (src/machine.js).

JavaScript strings are modeled as `List Char` (`Str`).  The engine's
per-instance `STATE_TREE` map is modeled as an insertion-ordered
association list from full path to a node id, and the JS heap of state
objects as an id-indexed list `heap`; a node's `parent` pointer is
modeled as the heap id of the parent object, so stale pointers after a
map entry is overwritten behave exactly as in JS.  Listener arrays are
not modeled (no claim mentions them); listener invocation is a no-op
here.  Functions that can throw a `TypeError` in JS return the
distinguished result `crash`.
-/

abbrev Str := List Char

/-- Shorthand turning a Lean string literal into our `Str` model of JS strings. -/
def chars (x : String) : Str := x.data

/-- Character class of `Machine.PATHPAT` and of the path capture groups:
ASCII letters, digits, dot, slash, dash. -/
def isPathChar (c : Char) : Bool :=
  ((65 ≤ c.toNat && c.toNat ≤ 90) || (97 ≤ c.toNat && c.toNat ≤ 122)
    || (48 ≤ c.toNat && c.toNat ≤ 57) || c.toNat = 46 || c.toNat = 47 || c.toNat = 45)

/-- Character class of state-name captures: `[A-Za-z0-9-]`. -/
def isNameChar (c : Char) : Bool :=
  ((65 ≤ c.toNat && c.toNat ≤ 90) || (97 ≤ c.toNat && c.toNat ≤ 122)
    || (48 ≤ c.toNat && c.toNat ≤ 57) || c.toNat = 45)

/-- The JavaScript whitespace class (`\s`, and what `String.prototype.trim`
removes): ASCII whitespace, NBSP, BOM, and the Unicode space separators. -/
def jsWsChar (c : Char) : Bool :=
  (c.toNat = 32 || (9 ≤ c.toNat && c.toNat ≤ 13) || c.toNat = 160 || c.toNat = 5760
    || (8192 ≤ c.toNat && c.toNat ≤ 8202) || c.toNat = 8232 || c.toNat = 8233
    || c.toNat = 8239 || c.toNat = 8287 || c.toNat = 12288 || c.toNat = 65279)

/-- Characters matched by `.` in a JS regex without the `s` flag
(anything except line terminators); used for the `(.*)` value capture. -/
def isDotChar (c : Char) : Bool :=
  (c.toNat ≠ 10 && c.toNat ≠ 13 && c.toNat ≠ 8232 && c.toNat ≠ 8233)

/-- `String.prototype.trim`. -/
def jsTrim (p : Str) : Str :=
  (((p.dropWhile jsWsChar).reverse).dropWhile jsWsChar).reverse

/-- `String.prototype.toLowerCase`, restricted to ASCII (every string a
claim touches is ASCII; non-ASCII letters are left unchanged). -/
def jsLower (p : Str) : Str := p.map Char.toLower

/-- `String.prototype.lastIndexOf` for a single character
(`none` models JS's `-1`). -/
def lastIdx (l : Str) (c : Char) : Option Nat :=
  match l.reverse.findIdx? (fun d => d = c) with
  | none => none
  | some i => some (l.length - 1 - i)

/-- One state object of the JS heap.  `parent` is the heap id of the
parent object (absent only on a root object); `cc`, `curr`, `data` model
the presence/absence of the like-named JS own-properties. -/
structure Node where
  name : Str
  parent : Option Nat
  cc : Option (List Str)
  curr : Option Nat
  data : Option Str
deriving DecidableEq, Repr

/-- One `Machine` instance: the `STATE_TREE` map (insertion-ordered
association list path ↦ heap id), the heap of state objects, and the
`_live` flag. -/
structure Machine where
  tree : List (Str × Nat)
  heap : List Node
  live : Bool
deriving DecidableEq, Repr

def rootNode : Node := ⟨[], none, none, none, none⟩

/-- The machine produced by `new Machine()`: only the root path `""`,
editing mode. -/
def freshMachine : Machine := ⟨[([], 0)], [rootNode], false⟩

/-- `STATE_TREE.get` (raw key, no normalization). -/
def treeGet : List (Str × Nat) → Str → Option Nat
  | [], _ => none
  | (k, v) :: rest, q => if k = q then some v else treeGet rest q

/-- `STATE_TREE.set`: replace the binding in place, or append a new one. -/
def treeSet : List (Str × Nat) → Str → Nat → List (Str × Nat)
  | [], k, v => [(k, v)]
  | (k0, v0) :: rest, k, v =>
      if k0 = k then (k, v) :: rest else (k0, v0) :: treeSet rest k v

/-- Dereference a heap id. -/
def heapGet (m : Machine) (i : Nat) : Option Node := m.heap.get? i

/-- Overwrite the object at a heap id (a JS in-place mutation). -/
def setNode (m : Machine) (i : Nat) (n : Node) : Machine :=
  { m with heap := m.heap.set i n }

/-- Outcome of calling a JS method: a normal return carrying the
`null`-or-error-string result, or a thrown `TypeError`. -/
inductive RunResult where
  | ret : Option Str → RunResult
  | crash : RunResult
deriving DecidableEq, Repr

/-- `normalizePath` (machine.js lines 140-147).  `Machine.PATHPAT` is
unanchored, so `str.match(PATHPAT)` succeeds whenever the string
contains at least one path character.  Falsy input (`null`, `""`)
returns the root path `""`, modeled by the empty-list branch. -/
def normalizePath (p : Str) : Option Str :=
  if p = [] then some []
  else if p.any isPathChar then some (jsLower (jsTrim p))
  else none

/-- `exists(path)` (the name `exists` is reserved in Lean). -/
def existsPath (m : Machine) (p : Str) : Bool :=
  match normalizePath p with
  | none => false
  | some q => (treeGet m.tree q).isSome

/-- Heap id of `getState(path)`'s result. -/
def getStateId (m : Machine) (p : Str) : Option Nat :=
  match normalizePath p with
  | none => none
  | some q => treeGet m.tree q

/-- `getState(path)`: normalized lookup returning the state object. -/
def getState (m : Machine) (p : Str) : Option Node :=
  match getStateId m p with
  | none => none
  | some i => heapGet m i

/-- `isLeaf(path)`: the path exists and its object has no `cc` member. -/
def isLeaf (m : Machine) (p : Str) : Bool :=
  match getState m p with
  | none => false
  | some st => st.cc.isNone

/-- `isVariableLeaf(path)`.  The JS body reads
`state.parent.hasOwnProperty("curr")` after checking `cc` is absent;
if `state.parent` were absent this would throw, modeled by `none`
(the root is screened out earlier by the `path.length <= 0` check). -/
def isVariableLeafJ (m : Machine) (p : Str) : Option Bool :=
  if ¬ existsPath m p then some false
  else if p = [] then some false
  else
    match getState m p with
    | none => some false
    | some st =>
      if st.cc.isSome then some false
      else
        match st.parent with
        | none => none
        | some pid =>
          match heapGet m pid with
          | none => none
          | some pn => some pn.curr.isSome

/-- `makeEmpty()` (machine.js lines 88-92): unconditionally replaces the
map with a fresh root-only map and forces editing mode.  There is no
live-mode gate in the source.  The old heap objects all become
unreachable (every access goes through the replaced map), so the model
drops them. -/
def makeEmpty (_m : Machine) : Machine := freshMachine

/-- `startEditing()`. -/
def startEditing (m : Machine) : Machine × RunResult :=
  if ¬ m.live then (m, .ret (some (chars "startEditing: already editing")))
  else ({ m with live := false }, .ret none)

/-- `finishEditing()` (the `newmachineListeners` calls are no-ops here). -/
def finishEditing (m : Machine) : Machine × RunResult :=
  if m.live then (m, .ret (some (chars "finishEditing: not editing")))
  else ({ m with live := true }, .ret none)

/-- `setCurrent(path, name)` (machine.js lines 360-377).
`s.cc.findIndex` on an object without `cc` would throw. -/
def setCurrent (m : Machine) (path name : Str) : Machine × RunResult :=
  if ¬ existsPath m path then
    (m, .ret (some (chars "setCurrent: bad path: " ++ path)))
  else
    match getStateId m path with
    | none => (m, .crash)
    | some i =>
      match heapGet m i with
      | none => (m, .crash)
      | some st =>
        match st.curr with
        | none => (m, .ret (some (chars "setCurrent: not a variable state: " ++ path)))
        | some _ =>
          match st.cc with
          | none => (m, .crash)
          | some l =>
            match l.findIdx? (fun e => e = name) with
            | none => (m, .ret (some (chars "setCurrent: no such child state: " ++ name)))
            | some i2 => (setNode m i { st with curr := some i2 }, .ret none)

/-- `setData(path, value)` (machine.js lines 388-399).  Data-change
listeners are no-ops here. -/
def setData (m : Machine) (path value : Str) : Machine × RunResult :=
  if ¬ isLeaf m path then
    (m, .ret (some (chars "setData: " ++ path ++ chars " is not a leaf")))
  else
    match isVariableLeafJ m path with
    | none => (m, .crash)
    | some true => (m, .ret (some (chars "setData: " ++ path ++ chars " is a variable leaf")))
    | some false =>
      match getStateId m path with
      | none => (m, .crash)
      | some i =>
        match heapGet m i with
        | none => (m, .crash)
        | some st => (setNode m i { st with data := some value }, .ret none)

/-- `getData(path)`: outer `none` is a thrown `TypeError`, inner `none`
is the JS `null` return; an unset or empty `data` member reads as `""`. -/
def getData (m : Machine) (path : Str) : Option (Option Str) :=
  if ¬ existsPath m path then some none
  else if ¬ isLeaf m path then some none
  else
    match isVariableLeafJ m path with
    | none => none
    | some true => some none
    | some false =>
      match getState m path with
      | none => some none
      | some st =>
        match st.data with
        | none => some (some [])
        | some d => if d = [] then some (some []) else some (some d)

/-- Combine `lastIndexOf` results as the source does
(`pos = dotPos; if (pos < slashPos) pos = slashPos`, with `-1` for
"not found" modeled by `none`). -/
def maxSep : Option Nat → Option Nat → Option Nat
  | none, none => none
  | some x, none => some x
  | none, some y => some y
  | some x, some y => some (max x y)

/-- The tail of `_addSubState` once the parent object `p` (at heap id
`pid`) is in hand (machine.js lines 509-530): the data check, the lazy
`cc` initialization, the two composition checks, the push, the lazy
`curr` initialization, and the creation of the child object and its map
entry. -/
def _attach (m : Machine) (pid : Nat) (pp : Str) (sep : Char) (name : Str) :
    Machine × RunResult :=
  match heapGet m pid with
  | none => (m, .crash)
  | some p =>
    if p.data.isSome then (m, .ret (some (chars "parent has data - cannot add child")))
    else
      let l := p.cc.getD []
      let p1 := { p with cc := some l }
      let m1 := if p.cc.isSome then m else setNode m pid p1
      if p1.curr.isNone && decide (l ≠ []) && decide (sep ≠ '.') then
        (m1, .ret (some (chars "concurrent parent cannot add variable child")))
      else if p1.curr.isSome && decide (sep ≠ '/') then
        (m1, .ret (some (chars "variable parent cannot add concurrent child")))
      else
        let curr2 := if sep = '/' && p1.curr.isNone then some 0 else p1.curr
        let m2 := setNode m1 pid { p1 with cc := some (l ++ [name]), curr := curr2 }
        let child : Node := ⟨name, some pid, none, none, none⟩
        let m3 : Machine :=
          { m2 with tree := treeSet m2.tree (pp ++ sep :: name) m2.heap.length,
                    heap := m2.heap ++ [child] }
        (m3, .ret none)

mutual

/-- `_addState(path)` (machine.js lines 477-488), with a structural fuel
so the mutual recursion with `_addSubState` is well founded; the fuel-0
branch is unreachable whenever `2 * path.length ≤ fuel`
(theorem `addStateN_fuel_irrel`). -/
def _addStateN : Nat → Machine → Str → Machine × RunResult
  | fuel, m, path =>
    if existsPath m path then (m, .ret none)
    else
      match maxSep (lastIdx path '.') (lastIdx path '/') with
      | none => (m, .ret (some (chars "addState: bad path: |" ++ path ++ chars "|")))
      | some pos =>
        match fuel with
        | 0 => (m, .crash)
        | f + 1 => _addSubStateN f m (path.take pos) (path.getD pos ' ') (path.drop (pos + 1))

/-- `_addSubState(parentPath, separator, name)` (machine.js lines
490-531).  The source's `if (! separator.length === 1)` check is inert
in JS (`!` binds before `===`, and a boolean never `===` a number), so
it has no counterpart here.  The name and separator tests mirror the
unanchored regex matches.  If the parent is missing even after a
successful recursive `_addState` (possible when the raw `parentPath`
differs from its normalization), `p.hasOwnProperty` throws in JS,
modeled by `crash`. -/
def _addSubStateN : Nat → Machine → Str → Char → Str → Machine × RunResult
  | fuel, m, pp, sep, name =>
    if ¬ name.any isNameChar then (m, .ret (some (chars "Bad name: |" ++ name ++ chars "|")))
    else if ¬ (sep = '.' || sep = '/') then
      (m, .ret (some (chars "Bad separator: |" ++ [sep] ++ chars "|")))
    else
      match treeGet m.tree pp with
      | some pid => _attach m pid pp sep name
      | none =>
        match fuel with
        | 0 => (m, .crash)
        | f + 1 =>
          match _addStateN f m pp with
          | (m', .crash) => (m', .crash)
          | (m', .ret (some e)) => (m', .ret (some e))
          | (m', .ret none) =>
            match treeGet m'.tree pp with
            | none => (m', .crash)
            | some pid => _attach m' pid pp sep name

end

/-- `_addState` at its exact JS semantics: the fuel `2 * path.length`
is always sufficient (theorem `addStateN_fuel_irrel`). -/
def _addState (m : Machine) (path : Str) : Machine × RunResult :=
  _addStateN (2 * path.length) m path

/-- `addState(path)` (machine.js lines 94-99). -/
def addState (m : Machine) (path : Str) : Machine × RunResult :=
  if m.live then (m, .ret (some (chars "addState: not editing!")))
  else
    match normalizePath path with
    | none => (m, .ret (some (chars "addState: bad path")))
    | some p => _addState m p

/-- The `arr.forEach` body of `addStates`: every `_addState` result is
computed and discarded (the `return result` inside the callback only
leaves the callback), so the loop continues after failures; only a
thrown error escapes. -/
def addStatesLoop : Machine → List Str → Machine × RunResult
  | m, [] => (m, .ret none)
  | m, p :: ps =>
    match _addState m p with
    | (m', .crash) => (m', .crash)
    | (m', .ret _) => addStatesLoop m' ps

/-- `addStates(arr)` (machine.js lines 101-112).  A Lean list always
passes the `arr.hasOwnProperty('length')` check.  Note the paths are
passed to `_addState` raw, without normalization. -/
def addStates (m : Machine) (arr : List Str) : Machine × RunResult :=
  if m.live then (m, .ret (some (chars "addStates: not editing!")))
  else addStatesLoop { m with live := false } arr

/-- Source text of `Machine.PPAT`, as a JS `RegExp` stringifies inside
the template-literal error messages. -/
def ppatSrc : Str := chars "/^P\\s+([A-Za-z0-9.\\/-]+)$/"

def cpatSrc : Str := chars "/^C\\s+([A-Za-z0-9.\\/-]+)\\s+([A-Za-z0-9-]+)/"

def dpatSrc : Str := chars "/^D\\s+([A-Za-z0-9.\\/-]+)\\s+(.*)/"

def apatSrc : Str := chars "/^A\\s+([A-Za-z0-9.\\/-]+)\\s+(.*)/"

/-- `str.match(Machine.PPAT)`: anchored at both ends; the whitespace
run and the path run are forced to be maximal because the character
classes are disjoint, so the deterministic scan below is exactly the
regex's backtracking semantics. -/
def matchPPAT (t : Str) : Option Str :=
  match t with
  | 'P' :: rest =>
    let ws1 := rest.takeWhile jsWsChar
    let r1 := rest.dropWhile jsWsChar
    if ws1 ≠ [] && r1 ≠ [] && r1.all isPathChar then some r1 else none
  | _ => none

/-- `str.match(Machine.CPAT)`: anchored only at the start; captures the
maximal path run and then the maximal name run. -/
def matchCPAT (t : Str) : Option (Str × Str) :=
  match t with
  | 'C' :: rest =>
    let ws1 := rest.takeWhile jsWsChar
    let r1 := rest.dropWhile jsWsChar
    let path := r1.takeWhile isPathChar
    let r2 := r1.dropWhile isPathChar
    let ws2 := r2.takeWhile jsWsChar
    let r3 := r2.dropWhile jsWsChar
    let child := r3.takeWhile isNameChar
    if ws1 ≠ [] && path ≠ [] && ws2 ≠ [] && child ≠ [] then some (path, child)
    else none
  | _ => none

/-- `str.match(Machine.DPAT)`: the `(.*)` value capture takes the rest
of the line up to a line terminator (JS `.` excludes them). -/
def matchDPAT (t : Str) : Option (Str × Str) :=
  match t with
  | 'D' :: rest =>
    let ws1 := rest.takeWhile jsWsChar
    let r1 := rest.dropWhile jsWsChar
    let path := r1.takeWhile isPathChar
    let r2 := r1.dropWhile isPathChar
    let ws2 := r2.takeWhile jsWsChar
    let r3 := r2.dropWhile jsWsChar
    if ws1 ≠ [] && path ≠ [] && ws2 ≠ [] then some (path, r3.takeWhile isDotChar)
    else none
  | _ => none

/-- `str.match(Machine.DNULLPAT)`: only the command letter, one
whitespace run and one path run are required. -/
def matchDNULLPAT (t : Str) : Option Str :=
  match t with
  | 'D' :: rest =>
    let ws1 := rest.takeWhile jsWsChar
    let r1 := rest.dropWhile jsWsChar
    let path := r1.takeWhile isPathChar
    if ws1 ≠ [] && path ≠ [] then some path else none
  | _ => none

/-- `str.match(Machine.APAT)`. -/
def matchAPAT (t : Str) : Option (Str × Str) :=
  match t with
  | 'A' :: rest =>
    let ws1 := rest.takeWhile jsWsChar
    let r1 := rest.dropWhile jsWsChar
    let path := r1.takeWhile isPathChar
    let r2 := r1.dropWhile isPathChar
    let ws2 := r2.takeWhile jsWsChar
    let r3 := r2.dropWhile jsWsChar
    if ws1 ≠ [] && path ≠ [] && ws2 ≠ [] then some (path, r3.takeWhile isDotChar)
    else none
  | _ => none

/-- `interpretOp(str)` (machine.js lines 167-216).  Falsy input (the
empty string, or JS `null`) returns success immediately; otherwise the
line is trimmed and dispatched on its first character.  A successful
`A`-line match calls `this.appendData`, a method that does not exist,
so it throws a `TypeError` (`crash`). -/
def interpretOp (m : Machine) (str : Str) : Machine × RunResult :=
  if str = [] then (m, .ret none)
  else
    let t := jsTrim str
    if t.take 1 = ['#'] then (m, .ret none)
    else if t.take 1 = ['C'] then
      match matchCPAT t with
      | some (path, child) =>
        let path2 := if path.getLast? = some '/' then path.dropLast else path
        setCurrent m path2 child
      | none =>
        (m, .ret (some (chars "interpretOp: " ++ t ++ chars "\nC - syntax must be " ++ cpatSrc)))
    else if t.take 1 = ['D'] then
      match matchDPAT t with
      | some (path, val) => setData m path val
      | none =>
        match matchDNULLPAT t with
        | some path => setData m path []
        | none =>
          (m, .ret (some (chars "interpretOp: " ++ t ++ chars "\nD - syntax must be " ++ dpatSrc)))
    else if t.take 1 = ['A'] then
      match matchAPAT t with
      | some _ => (m, .crash)
      | none =>
        (m, .ret (some (chars "interpretOp: " ++ t ++ chars "\nA - syntax must be " ++ apatSrc)))
    else if t.take 1 = ['P'] then
      if m.live then (m, .ret (some (chars "interpretOp " ++ t ++ chars "\nP - not editing")))
      else
        match matchPPAT t with
        | some path => addState m path
        | none =>
          (m, .ret (some (chars "interpretOp: " ++ t ++ chars "\nP - syntax must be " ++ ppatSrc)))
    else (m, .ret (some (chars "interpretOp: " ++ t ++ chars "\nbad command: " ++ t.take 1)))

/-- `interpret(arr)` (machine.js lines 218-221).  The source maps
`interpretOp` over the whole array (so every line is applied, even
after earlier failures) and then returns the first non-null entry of
the collected results; an exception thrown by a line escapes from the
`map`.  The recursion below computes exactly that. -/
def interpret : Machine → List Str → Machine × RunResult
  | m, [] => (m, .ret none)
  | m, line :: rest =>
    match interpretOp m line with
    | (m', .crash) => (m', .crash)
    | (m', .ret e) =>
      match interpret m' rest with
      | (m2, .crash) => (m2, .crash)
      | (m2, .ret e2) => (m2, .ret (e.or e2))

/-- Length of the longest key in the map; the walk recursions below can
descend only into paths whose normalization is a key, which bounds their
depth (see `walkAllN_stable`). -/
def maxKeyLen (t : List (Str × Nat)) : Nat :=
  t.foldr (fun kv acc => max kv.1.length acc) 0

/-- Fuel that is always sufficient for the traversal walks started at
the root path. -/
def fuelBound (m : Machine) : Nat := maxKeyLen m.tree + 1

/-- The loop body of `_appendChildren(path, state, arr)` (machine.js
lines 453-465), abstracted over the recursive descent into a found
child.  The child path is pushed before the child lookup, so missing
children still contribute their path. -/
def walkAllStep (recurse : Machine → Str → Node → List Str)
    (m : Machine) (path : Str) (st : Node) : List Str :=
  match st.cc with
  | none => []
  | some l =>
    let sep := if st.curr.isSome then '/' else '.'
    l.flatMap (fun name =>
      let cPath := path ++ sep :: name
      cPath :: (match getState m cPath with
        | some child => recurse m cPath child
        | none => []))

/-- `_appendChildren` itself, with a structural fuel consumed at each
descent; the fuel `fuelBound` is always sufficient (theorem
`walkAllN_stable`), and at exhausted fuel a found child is simply not
descended into — which, with sufficient fuel, never happens. -/
def walkAllN : Nat → Machine → Str → Node → List Str
  | 0, m, path, st => walkAllStep (fun _ _ _ => []) m path st
  | f + 1, m, path, st => walkAllStep (walkAllN f) m path st

/-- The loop body of `_appendCurrentChildren(path, state, arr)`
(machine.js lines 424-451): at a variable state only `cc[curr]` is
followed (nothing is pushed if that child name is missing or falsy); at
a concurrent state all children are followed. -/
def walkCurrentStep (recurse : Machine → Str → Node → List Str)
    (m : Machine) (path : Str) (st : Node) : List Str :=
  match st.cc with
  | none => []
  | some l =>
    match st.curr with
    | some c =>
      match l.get? c with
      | none => []
      | some name =>
        if name = [] then []
        else
          let cPath := path ++ '/' :: name
          cPath :: (match getState m cPath with
            | some child => recurse m cPath child
            | none => [])
    | none =>
      l.flatMap (fun name =>
        let cPath := path ++ '.' :: name
        cPath :: (match getState m cPath with
          | some child => recurse m cPath child
          | none => []))

/-- `_appendCurrentChildren` itself, fueled like `walkAllN`. -/
def walkCurrentN : Nat → Machine → Str → Node → List Str
  | 0, m, path, st => walkCurrentStep (fun _ _ _ => []) m path st
  | f + 1, m, path, st => walkCurrentStep (walkCurrentN f) m path st

/-- `getAllPaths()` (machine.js lines 225-230).  If the root key were
missing, `_appendChildren` would read `.cc` of `null` and throw,
modeled by `none`. -/
def getAllPaths (m : Machine) : Option (List Str) :=
  match getState m [] with
  | none => none
  | some root => some ([] :: walkAllN (fuelBound m) m [] root)

/-- `getCurrentPaths()` (machine.js lines 244-249). -/
def getCurrentPaths (m : Machine) : Option (List Str) :=
  match getState m [] with
  | none => none
  | some root => some ([] :: walkCurrentN (fuelBound m) m [] root)

/-- `_snipChild(path)` (machine.js lines 282-288). -/
def _snipChild (path : Str) : Option (Str × Str) :=
  match lastIdx path '/' with
  | none => none
  | some pos =>
    let childName := path.drop (pos + 1)
    if childName.contains '.' then none
    else some (path.take pos, childName)

/-- The two conditional emissions that follow a `P` line in
`getSerialization` (machine.js lines 258-275): a `C` line when the
parent is a variable parent with a non-default selection and this path
is the selected child; a `D` line when the parent is a concurrent
parent and this path holds non-empty data.  `none` models the throws
(`parent.cc[...]` of `undefined`, or `pair[0]` of `null`). -/
def serExtras (m : Machine) (path : Str) (st : Node) : Option (List Str) :=
  match st.parent with
  | none => some []
  | some pid =>
    match heapGet m pid with
    | none => none
    | some parent =>
      match parent.curr with
      | some c =>
        if c = 0 then some []
        else
          match parent.cc with
          | none => none
          | some pl =>
            if pl.get? c = some st.name then
              match _snipChild path with
              | none => none
              | some pr => some [chars "C " ++ pr.1 ++ chars " " ++ pr.2]
            else some []
      | none =>
        match st.data with
        | none => some []
        | some d =>
          if d = [] then some []
          else some [chars "D " ++ path ++ chars " " ++ d]

/-- The `arr.forEach` loop of `getSerialization`: a `P` line for every
path, followed by its conditional `C`/`D` lines.  `getState` returning
`null` makes the JS loop throw on `state.parent`. -/
def serLoop (m : Machine) : List Str → Option (List Str)
  | [] => some []
  | path :: rest =>
    match getState m path with
    | none => none
    | some st =>
      match serExtras m path st with
      | none => none
      | some extras =>
        match serLoop m rest with
        | none => none
        | some tail => some ((chars "P " ++ path) :: extras ++ tail)

/-- `getSerialization()` (machine.js lines 253-278). -/
def getSerialization (m : Machine) : Option (List Str) :=
  match getAllPaths m with
  | none => none
  | some arr => serLoop m arr

/-- The machine states reachable from `new Machine()` through the
public operations. -/
inductive Reachable : Machine → Prop where
  | fresh : Reachable freshMachine
  | step_addState {m p} : Reachable m → Reachable (addState m p).1
  | step_addStates {m l} : Reachable m → Reachable (addStates m l).1
  | step_setCurrent {m p n} : Reachable m → Reachable (setCurrent m p n).1
  | step_setData {m p v} : Reachable m → Reachable (setData m p v).1
  | step_makeEmpty {m} : Reachable m → Reachable (makeEmpty m)
  | step_startEditing {m} : Reachable m → Reachable (startEditing m).1
  | step_finishEditing {m} : Reachable m → Reachable (finishEditing m).1
  | step_interpret {m lines} : Reachable m → Reachable (interpret m lines).1

/-- The `curr` well-formedness invariant: every state object carrying a
`curr` index has a `cc` array and the index is in bounds. -/
def CurrInv (m : Machine) : Prop :=
  ∀ n ∈ m.heap, ∀ i, n.curr = some i → ∃ l, n.cc = some l ∧ i < l.length

/-- Well-formedness of one state object, as required by `CurrInv`. -/
def NodeOk (n : Node) : Prop :=
  ∀ i, n.curr = some i → ∃ l, n.cc = some l ∧ i < l.length

/-- Length of a string after stripping leading JS whitespace; the walk
depth measure. -/
def nlen (p : Str) : Nat := (p.dropWhile jsWsChar).length

/-- The machine of the spec's concrete scenario: `.a`, `.a/x`, `.a/y`
added to a fresh machine, then `finishEditing`. -/
def demoMachine : Machine :=
  (finishEditing
    (addState (addState (addState freshMachine (chars ".a")).1 (chars ".a/x")).1
      (chars ".a/y")).1).1

theorem findIdx?_lt {α : Type} (p : α → Bool) :
    ∀ (l : List α) (i : Nat), l.findIdx? p = some i → i < l.length := by
  intro l
  induction l with
  | nil => intro i h; simp [List.findIdx?] at h
  | cons a t ih =>
    intro i h
    rw [List.findIdx?_cons] at h
    by_cases hp : p a
    · simp [hp] at h; simp [← h]
    · simp [hp] at h
      match i, h with
      | i + 1, h =>
        have := ih i (by simpa using h)
        simp
        omega

theorem pathChar_not_jsWs (c : Char) (h : isPathChar c = true) : jsWsChar c = false := by
  simp [isPathChar] at h
  simp [jsWsChar]
  omega

theorem jsTrim_eq_self {p : Str} (h : ∀ c ∈ p, jsWsChar c = false) : jsTrim p = p := by
  unfold jsTrim
  have h1 : p.dropWhile jsWsChar = p := by
    cases p with
    | nil => rfl
    | cons a t => rw [List.dropWhile_cons_of_neg]; simp [h a (by simp)]
  rw [h1]
  have h2 : p.reverse.dropWhile jsWsChar = p.reverse := by
    cases hp : p.reverse with
    | nil => rfl
    | cons a t =>
      rw [List.dropWhile_cons_of_neg]
      have : a ∈ p := by
        have : a ∈ p.reverse := by rw [hp]; simp
        simpa using this
      simp [h a this]
  rw [h2, List.reverse_reverse]

theorem jsTrim_all_ws {p : Str} (h : ∀ c ∈ p, jsWsChar c = true) : jsTrim p = [] := by
  unfold jsTrim
  have h1 : p.dropWhile jsWsChar = [] := by
    rw [List.dropWhile_eq_nil_iff]
    intro x hx; exact h x hx
  rw [h1]
  rfl

/-- C5, corrected.  `normalizePath` returns `Invalid` (`null`) exactly
for the non-empty strings that contain no path character at all (the
`PATHPAT` regex is unanchored, so one path character anywhere makes the
match succeed); `null`/empty input yields the root path; any string
containing a path character is returned trimmed and lower-cased, and a
string consisting entirely of path characters is only lower-cased. -/
theorem C5_normalizePath_amended : ∀ p : Str,
    (normalizePath p = none ↔ (p ≠ [] ∧ ∀ c ∈ p, isPathChar c = false)) ∧
    normalizePath [] = some [] ∧
    (p.any isPathChar = true → normalizePath p = some (jsLower (jsTrim p))) ∧
    (p ≠ [] → p.all isPathChar = true → normalizePath p = some (jsLower p)) := by
  intro p
  refine ⟨?_, rfl, ?_, ?_⟩
  · constructor
    · intro h
      unfold normalizePath at h
      by_cases hp : p = []
      · rw [if_pos hp] at h; exact absurd h (by simp)
      · rw [if_neg hp] at h
        by_cases ha : p.any isPathChar = true
        · rw [if_pos ha] at h; exact absurd h (by simp)
        · refine ⟨hp, fun c hc => ?_⟩
          simp [List.any_eq_true] at ha
          simpa using ha c hc
    · rintro ⟨hp, hall⟩
      have ha : ¬ p.any isPathChar = true := by
        simp [List.any_eq_true]
        intro c hc
        simp [hall c hc]
      unfold normalizePath
      simp [hp, ha]
  · intro ha
    have hp : p ≠ [] := by
      rintro rfl
      simp at ha
    unfold normalizePath
    simp [hp, ha]
  · intro hp hall
    have ha : p.any isPathChar = true := by
      cases p with
      | nil => simp at hp
      | cons a t =>
        simp [List.all_cons] at hall
        simp [List.any_cons, hall.1]
    have htrim : jsTrim p = p := by
      apply jsTrim_eq_self
      intro c hc
      apply pathChar_not_jsWs
      simp [List.all_eq_true] at hall
      exact hall c hc
    unfold normalizePath
    simp [hp, ha, htrim]

/-- C5 counterexample: `"a!"` contains `'!'`, a character outside the
path class, yet `normalizePath` accepts it unchanged because the
unanchored `PATHPAT` matches the `'a'`. -/
theorem C5_counterexample :
    isPathChar '!' = false ∧ normalizePath (chars "a!") = some (chars "a!") := by decide

/-- C5 witness: the amended theorem applied at `".A-b"`. -/
theorem C5_witness : normalizePath (chars ".A-b") = some (chars ".a-b") := by
  have h := (C5_normalizePath_amended (chars ".A-b")).2.2.2 (by decide) (by decide)
  simpa using h

/-- C4 counterexample: on a live machine, `makeEmpty` does not fail with
a not-editing reason — it succeeds, discards the tree, and flips the
mode back to editing. -/
theorem C4_counterexample :
    (finishEditing freshMachine).1.live = true ∧
    makeEmpty (finishEditing freshMachine).1 = freshMachine ∧
    (makeEmpty (finishEditing freshMachine).1).live = false := by decide

/-- C4, corrected.  `addState` and `addStates` are gated on editing mode
and leave the machine (node map and mode) unchanged when live, but
`makeEmpty` has no gate: on any machine, live or not, it succeeds and
resets to the fresh editing-mode machine. -/
theorem C4_mutation_gating_amended :
    (∀ (m : Machine) (p : Str), m.live = true →
        addState m p = (m, .ret (some (chars "addState: not editing!")))) ∧
    (∀ (m : Machine) (l : List Str), m.live = true →
        addStates m l = (m, .ret (some (chars "addStates: not editing!")))) ∧
    (∀ m : Machine, makeEmpty m = freshMachine ∧ (makeEmpty m).live = false) := by
  refine ⟨fun m p h => ?_, fun m l h => ?_, fun m => ⟨rfl, rfl⟩⟩
  · unfold addState; rw [if_pos h]
  · unfold addStates; rw [if_pos h]

/-- C4 witness: the amended theorem applied to a concrete live machine. -/
theorem C4_witness :
    addState (finishEditing freshMachine).1 (chars ".a") =
      ((finishEditing freshMachine).1, .ret (some (chars "addState: not editing!"))) :=
  C4_mutation_gating_amended.1 (finishEditing freshMachine).1 (chars ".a") (by decide)

/-- C3 (code bug, documented as such by the spec): the `forEach`
callback's `return result` only leaves the callback, so `addStates`
returns success even though `_addState "x"` fails, and it keeps
applying the later paths (`".a"` is still added). -/
theorem C3_addStates_swallows_errors :
    (addStates freshMachine [chars "x", chars ".a"]).2 = .ret none ∧
    existsPath (addStates freshMachine [chars "x", chars ".a"]).1 (chars ".a") = true ∧
    (_addState freshMachine (chars "x")).2 =
      .ret (some (chars "addState: bad path: |x|")) := by decide

/-- C7 (code bug): on a fresh machine the root is a childless leaf with
no parent, `isVariableLeaf("")` is false by the explicit length check,
and `setData("", "v")` therefore succeeds and stores data on the root —
contradicting the stated invariant (and the source's own header
comment) that data lives only on leaves under a concurrent parent. -/
theorem C7_setData_accepts_root :
    (setData freshMachine [] (chars "v")).2 = .ret none ∧
    (setData freshMachine [] (chars "v")).1.heap =
      [{ rootNode with data := some (chars "v") }] ∧
    isLeaf freshMachine [] = true ∧
    isVariableLeafJ freshMachine [] = some false := by decide

/-- C1 (code bug): the machine holding data `"v"` on the root is
reachable, because `setData` succeeds on the childless root,
but its serialization is just `["P "]` — the serializer only emits `D`
lines for nodes with a parent — so replaying it in a fresh machine
yields root data `""`, not `"v"`: the round trip loses a data-leaf
value. -/
theorem C1_roundtrip_loses_root_data :
    getData (setData freshMachine [] (chars "v")).1 [] = some (some (chars "v")) ∧
    getSerialization (setData freshMachine [] (chars "v")).1 = some [chars "P "] ∧
    (interpret freshMachine [chars "P "]).1 = freshMachine ∧
    getData freshMachine [] = some (some []) ∧
    Reachable (setData freshMachine [] (chars "v")).1 :=
  ⟨by decide, by decide, by decide, by decide,
    Reachable.step_setData Reachable.fresh⟩

/-- C2 counterexample: the first line `"X"` fails with a bad-command
error, yet the second line `"P .a"` is still applied — `interpret` maps
over all lines before picking the first failure, so a failure does not
stop interpretation. -/
theorem C2_counterexample :
    (interpret freshMachine [chars "X", chars "P .a"]).2 =
      .ret (some (chars "interpretOp: X\nbad command: X")) ∧
    existsPath (interpret freshMachine [chars "X", chars "P .a"]).1 (chars ".a") = true := by
  decide

/-- C2, corrected.  `interpret` applies every line in order — a failing
line does not stop interpretation, and the returned value is the first
failure among all the lines (success iff every line succeeds); only a
thrown error (the phantom `A` command) aborts the run.  Stated as a
concatenation law: running `l1 ++ l2` runs `l1`, then runs `l2` on the
resulting machine even when `l1` produced a failure, and returns the
first failure of the combined run. -/
theorem C2_interpret_applies_all :
    ∀ (m : Machine) (l1 l2 : List Str),
      interpret m (l1 ++ l2) =
        match interpret m l1 with
        | (m1, .crash) => (m1, .crash)
        | (m1, .ret e1) =>
          match interpret m1 l2 with
          | (m2, .crash) => (m2, .crash)
          | (m2, .ret e2) => (m2, .ret (e1.or e2)) := by
  intro m l1 l2
  induction l1 generalizing m with
  | nil =>
    simp only [List.nil_append, interpret]
    cases h : interpret m l2 with
    | mk m2 r =>
      cases r with
      | crash => rfl
      | ret e2 => simp [Option.or]
  | cons a t ih =>
    simp only [List.cons_append, interpret]
    cases h1 : interpretOp m a with
    | mk m' r =>
      cases r with
      | crash => rfl
      | ret e =>
        dsimp only [List.append_eq]
        rw [ih m']
        cases h2 : interpret m' t with
        | mk m1 r1 =>
          cases r1 with
          | crash => rfl
          | ret e1 =>
            dsimp only
            cases h3 : interpret m1 l2 with
            | mk m2 r2 =>
              cases r2 with
              | crash => rfl
              | ret e2 => dsimp only; rw [Option.or_assoc]

/-- C10: a non-empty all-whitespace line trims to the empty string,
which starts with none of `#`, `C`, `D`, `A`, `P`, so it falls through
to the bad-command failure (with an empty `str.slice(0,1)` in the
message) — it is not treated as a blank no-op; the empty string (and JS
`null`, which takes the same falsy branch) and lines whose trimmed form
starts with `#` succeed with no effect. -/
theorem C10_whitespace_is_bad_command : ∀ (m : Machine) (p : Str),
    (p ≠ [] → (∀ c ∈ p, jsWsChar c = true) →
      interpretOp m p = (m, .ret (some (chars "interpretOp: \nbad command: ")))) ∧
    interpretOp m [] = (m, .ret none) ∧
    (∀ q : Str, (jsTrim q).take 1 = ['#'] → interpretOp m q = (m, .ret none)) := by
  intro m p
  refine ⟨?_, by simp [interpretOp], ?_⟩
  · intro hp hws
    have ht : jsTrim p = [] := jsTrim_all_ws hws
    unfold interpretOp
    rw [if_neg hp]
    simp only [ht]
    norm_num
    decide
  · intro q hq
    have hqne : q ≠ [] := by
      rintro rfl
      simp [jsTrim] at hq
    unfold interpretOp
    rw [if_neg hqne]
    simp only [hq]
    norm_num

/-- C10 witness: the theorem applied at a tab-space line and at a
comment line. -/
theorem C10_witness :
    interpretOp freshMachine [' ', '\t'] =
      (freshMachine, .ret (some (chars "interpretOp: \nbad command: "))) ∧
    interpretOp freshMachine (chars "# note") = (freshMachine, .ret none) :=
  ⟨(C10_whitespace_is_bad_command freshMachine [' ', '\t']).1 (by decide) (by decide),
   (C10_whitespace_is_bad_command freshMachine []).2.2 (chars "# note") (by decide)⟩

theorem addSubStateN_found (fuel : Nat) (m : Machine) (pp : Str) (sep : Char)
    (name : Str) (pid : Nat)
    (h : treeGet m.tree pp = some pid) (hn : name.any isNameChar = true)
    (hs : (sep = '.' || sep = '/') = true) :
    _addSubStateN fuel m pp sep name = _attach m pid pp sep name := by
  cases fuel with
  | zero =>
    simp only [_addSubStateN]
    rw [if_neg (by simp [hn]), if_neg (by simp [hs]), h]
  | succ f =>
    simp only [_addSubStateN]
    rw [if_neg (by simp [hn]), if_neg (by simp [hs]), h]

/-- C6: once a parent has children, their join kind is fixed.  With the
parent object in hand (`cc` present and data-free, and a syntactically
valid child name so the earlier checks pass), adding a `/`-child to a
concurrent parent (no `curr`, non-empty `cc`) fails with the
composition-violation reason, and adding a `.`-child to a variable
parent (`curr` present) fails symmetrically; in both cases the machine
is returned unchanged.  The two closing conjuncts run the spec's
concrete scenario through `addState`. -/
theorem C6_composition_exclusivity :
    (∀ (fuel : Nat) (m : Machine) (pp name : Str) (pid : Nat) (p : Node) (l : List Str),
      treeGet m.tree pp = some pid →
      heapGet m pid = some p →
      p.data = none →
      p.cc = some l →
      name.any isNameChar = true →
      ((p.curr = none → l ≠ [] →
          _addSubStateN fuel m pp '/' name =
            (m, .ret (some (chars "concurrent parent cannot add variable child")))) ∧
        (∀ i, p.curr = some i →
          _addSubStateN fuel m pp '.' name =
            (m, .ret (some (chars "variable parent cannot add concurrent child")))))) ∧
    addState (addState freshMachine (chars ".x/a")).1 (chars ".x.b") =
      ((addState freshMachine (chars ".x/a")).1,
        .ret (some (chars "variable parent cannot add concurrent child"))) ∧
    addState (addState freshMachine (chars ".x.a")).1 (chars ".x/b") =
      ((addState freshMachine (chars ".x.a")).1,
        .ret (some (chars "concurrent parent cannot add variable child"))) := by
  refine ⟨?_, by decide, by decide⟩
  intro fuel m pp name pid p l htree hheap hdata hcc hname
  constructor
  · intro hcurr hl
    rw [addSubStateN_found fuel m pp '/' name pid htree hname (by simp)]
    unfold _attach
    simp only [hheap]
    rw [if_neg (by simp [hdata])]
    simp [hcc, hcurr, hl]
  · intro i hcurr
    rw [addSubStateN_found fuel m pp '.' name pid htree hname (by simp)]
    unfold _attach
    simp only [hheap]
    rw [if_neg (by simp [hdata])]
    simp [hcc, hcurr]

/-- C6 witness: the general statement applied to the machine obtained by
adding `.x/a` to a fresh machine, whose `.x` node is a variable parent. -/
theorem C6_witness :
    _addSubStateN 0 (addState freshMachine (chars ".x/a")).1 (chars ".x") '.' (chars "b") =
      ((addState freshMachine (chars ".x/a")).1,
        .ret (some (chars "variable parent cannot add concurrent child"))) :=
  (C6_composition_exclusivity.1 0 (addState freshMachine (chars ".x/a")).1 (chars ".x")
    (chars "b") 1 ⟨['x'], some 0, some [['a']], some 0, none⟩ [['a']]
    (by decide) (by decide) (by decide) (by decide) (by decide)).2 0 (by decide)

theorem flatMap_sublist {α β : Type} (f g : α → List β) :
    ∀ l : List α, (∀ a ∈ l, List.Sublist (f a) (g a)) →
      List.Sublist (l.flatMap f) (l.flatMap g) := by
  intro l
  induction l with
  | nil => intro _; simp
  | cons a t ih =>
    intro h
    simp only [List.flatMap_cons]
    exact List.Sublist.append (h a (by simp)) (ih fun b hb => h b (by simp [hb]))

theorem get?_split {α : Type} : ∀ (l : List α) (c : Nat) (x : α),
    l.get? c = some x → l = l.take c ++ x :: l.drop (c + 1) := by
  intro l
  induction l with
  | nil => intro c x h; simp at h
  | cons a t ih =>
    intro c x h
    cases c with
    | zero => simp at h; simp [h]
    | succ c =>
      rw [List.get?_cons_succ] at h
      simpa using ih c x h

theorem sublist_middle {a : Type} (x A B : List a) :
    List.Sublist x (A ++ (x ++ B)) :=
  (List.sublist_append_left x B).trans (List.sublist_append_right A (x ++ B))

theorem walkStep_sublist (recC recA : Machine → Str → Node → List Str)
    (h : ∀ m p st, List.Sublist (recC m p st) (recA m p st)) :
    ∀ (m : Machine) (path : Str) (st : Node),
      List.Sublist (walkCurrentStep recC m path st) (walkAllStep recA m path st) := by
  intro m path st
  unfold walkCurrentStep walkAllStep
  cases hcc : st.cc with
  | none => simp
  | some l =>
    cases hcu : st.curr with
    | none =>
      simp only [Option.isSome_none,
        show (if (false = true) then '/' else '.') = '.' from rfl]
      apply flatMap_sublist
      intro a _
      dsimp only
      cases hg : getState m (path ++ '.' :: a) with
      | none => exact List.Sublist.refl _
      | some child => exact List.Sublist.cons₂ _ (h m (path ++ '.' :: a) child)
    | some c =>
      simp only [Option.isSome_some, if_true]
      split
      next => exact List.nil_sublist _
      next name hgc =>
        split
        next => exact List.nil_sublist _
        next hname =>
          rw [get?_split l c name hgc, List.flatMap_append, List.flatMap_cons]
          have hinner : List.Sublist
              ((path ++ '/' :: name) :: (match getState m (path ++ '/' :: name) with
                | some child => recC m (path ++ '/' :: name) child
                | none => []))
              ((path ++ '/' :: name) :: (match getState m (path ++ '/' :: name) with
                | some child => recA m (path ++ '/' :: name) child
                | none => [])) := by
            cases hg : getState m (path ++ '/' :: name) with
            | none => exact List.Sublist.refl _
            | some child => exact List.Sublist.cons₂ _ (h m (path ++ '/' :: name) child)
          exact hinner.trans (sublist_middle _ _ _)

theorem walkCurrentN_sublist :
    ∀ (fuel : Nat) (m : Machine) (path : Str) (st : Node),
      List.Sublist (walkCurrentN fuel m path st) (walkAllN fuel m path st) := by
  intro fuel
  induction fuel with
  | zero =>
    intro m path st
    exact walkStep_sublist _ _ (fun _ _ _ => List.Sublist.refl []) m path st
  | succ f ih =>
    intro m path st
    exact walkStep_sublist _ _ ih m path st

/-- C8: `getCurrentPaths` is the `getAllPaths` walk with subtrees
skipped — on any machine it yields a sublist of `getAllPaths` (stated
both for the raw walks at equal fuel and for the public operations) —
and on the spec's concrete scenario the active set is
`["", ".a", ".a/x"]`, becoming `["", ".a", ".a/y"]` after
`setCurrent(".a", "y")`. -/
theorem C8_activePaths :
    (∀ (fuel : Nat) (m : Machine) (path : Str) (st : Node),
      List.Sublist (walkCurrentN fuel m path st) (walkAllN fuel m path st)) ∧
    (∀ (m : Machine) (lAll lCur : List Str),
      getAllPaths m = some lAll → getCurrentPaths m = some lCur →
      List.Sublist lCur lAll) ∧
    getAllPaths demoMachine = some [[], chars ".a", chars ".a/x", chars ".a/y"] ∧
    getCurrentPaths demoMachine = some [[], chars ".a", chars ".a/x"] ∧
    getCurrentPaths (setCurrent demoMachine (chars ".a") (chars "y")).1 =
      some [[], chars ".a", chars ".a/y"] := by
  refine ⟨walkCurrentN_sublist, ?_, by decide, by decide, by decide⟩
  intro m lAll lCur hAll hCur
  unfold getAllPaths at hAll
  unfold getCurrentPaths at hCur
  cases hr : getState m [] with
  | none => rw [hr] at hAll; exact absurd hAll (by simp)
  | some root =>
    rw [hr] at hAll hCur
    simp only [Option.some.injEq] at hAll hCur
    rw [← hAll, ← hCur]
    exact List.Sublist.cons₂ _ (walkCurrentN_sublist _ m [] root)

/-- C8 witness: the sublist statement applied to the demo machine. -/
theorem C8_witness :
    List.Sublist [([] : Str), chars ".a", chars ".a/x"]
      [[], chars ".a", chars ".a/x", chars ".a/y"] :=
  C8_activePaths.2.1 demoMachine _ _ (by decide) (by decide)

theorem currInv_setNode {m : Machine} {j : Nat} {n : Node}
    (hm : CurrInv m) (hn : NodeOk n) : CurrInv (setNode m j n) := by
  intro x hx i hi
  rcases List.mem_or_eq_of_mem_set hx with h | rfl
  · exact hm x h i hi
  · exact hn i hi

theorem currInv_attach {m : Machine} (pid : Nat) (pp : Str) (sep : Char) (name : Str)
    (hm : CurrInv m) : CurrInv (_attach m pid pp sep name).1 := by
  unfold _attach
  split
  next => exact hm
  next p hp =>
    have hpok : NodeOk p := fun i hi => hm p (List.get?_mem hp) i hi
    have hp1 : NodeOk { p with cc := some (p.cc.getD []) } := by
      intro i hi
      simp only at hi
      obtain ⟨l0, hcc, hlt⟩ := hpok i hi
      exact ⟨l0, by simp [hcc], hlt⟩
    have hm1 : CurrInv (if p.cc.isSome then m
        else setNode m pid { p with cc := some (p.cc.getD []) }) := by
      split
      · exact hm
      · exact currInv_setNode hm hp1
    have hnode2 : NodeOk
        ⟨p.name, p.parent, some (p.cc.getD [] ++ [name]),
          (if (decide (sep = '/') && (p.curr).isNone) = true then some 0 else p.curr),
          p.data⟩ := by
      intro i hi
      simp only at hi
      by_cases hsep : (decide (sep = '/') && (p.curr).isNone) = true
      · rw [if_pos hsep] at hi
        cases hi
        exact ⟨_, rfl, by simp⟩
      · rw [if_neg hsep] at hi
        obtain ⟨l0, hcc, hlt⟩ := hpok i hi
        refine ⟨_, rfl, ?_⟩
        simp [hcc]
        omega
    split
    next => exact hm
    next hd =>
      dsimp only
      split
      next => exact hm1
      next h1 =>
        split
        next => exact hm1
        next h2 =>
          intro x hx i hi
          simp only [setNode, List.mem_append, List.mem_singleton] at hx
          rcases hx with hx | rfl
          · rcases List.mem_or_eq_of_mem_set hx with hx2 | rfl
            · exact hm1 x hx2 i hi
            · exact hnode2 i hi
          · simp at hi

theorem currInv_addStateN : ∀ fuel : Nat,
    (∀ (m : Machine) (path : Str), CurrInv m → CurrInv (_addStateN fuel m path).1) ∧
    (∀ (m : Machine) (pp : Str) (sep : Char) (name : Str),
      CurrInv m → CurrInv (_addSubStateN fuel m pp sep name).1) := by
  intro fuel
  induction fuel with
  | zero =>
    constructor
    · intro m path hm
      simp only [_addStateN]
      split
      · exact hm
      · split
        · exact hm
        · exact hm
    · intro m pp sep name hm
      simp only [_addSubStateN]
      split
      · exact hm
      · split
        · exact hm
        · split
          · exact currInv_attach _ _ _ _ hm
          · exact hm
  | succ f ih =>
    constructor
    · intro m path hm
      simp only [_addStateN]
      split
      · exact hm
      · split
        · exact hm
        · exact ih.2 m _ _ _ hm
    · intro m pp sep name hm
      simp only [_addSubStateN]
      split
      · exact hm
      · split
        · exact hm
        · split
          · exact currInv_attach _ _ _ _ hm
          · cases hrec : _addStateN f m pp with
            | mk m' r =>
              have hm' : CurrInv m' := by
                have := ih.1 m pp hm
                rw [hrec] at this
                exact this
              cases r with
              | crash => exact hm'
              | ret e =>
                cases e with
                | some err => exact hm'
                | none =>
                  dsimp only
                  cases ht : treeGet m'.tree pp with
                  | none => exact hm'
                  | some pid => exact currInv_attach _ _ _ _ hm'

theorem currInv_addState {m : Machine} (path : Str) (hm : CurrInv m) :
    CurrInv (addState m path).1 := by
  unfold addState
  split
  · exact hm
  · split
    · exact hm
    · exact (currInv_addStateN _).1 _ _ hm

theorem currInv_addStatesLoop : ∀ (arr : List Str) (m : Machine),
    CurrInv m → CurrInv (addStatesLoop m arr).1 := by
  intro arr
  induction arr with
  | nil => intro m hm; exact hm
  | cons a t ih =>
    intro m hm
    simp only [addStatesLoop]
    have hm' : CurrInv (_addState m a).1 := (currInv_addStateN _).1 _ _ hm
    cases hrec : _addState m a with
    | mk m' r =>
      rw [hrec] at hm'
      cases r with
      | crash => exact hm'
      | ret e => exact ih m' hm'

theorem currInv_addStates {m : Machine} (arr : List Str) (hm : CurrInv m) :
    CurrInv (addStates m arr).1 := by
  unfold addStates
  split
  · exact hm
  · exact currInv_addStatesLoop arr _ hm

theorem currInv_setCurrent {m : Machine} (path name : Str) (hm : CurrInv m) :
    CurrInv (setCurrent m path name).1 := by
  unfold setCurrent
  repeat' split
  all_goals try exact hm
  next =>
    rename_i u1 l hcc u2 i2 hidx
    apply currInv_setNode hm
    intro j hj
    simp only at hj
    cases hj
    exact ⟨l, by simp [hcc], findIdx?_lt _ l i2 hidx⟩

theorem currInv_setData {m : Machine} (path value : Str) (hm : CurrInv m) :
    CurrInv (setData m path value).1 := by
  unfold setData
  repeat' split
  all_goals try exact hm
  next st hst =>
    apply currInv_setNode hm
    intro j hj
    simp only at hj
    have hmem : st ∈ m.heap := List.get?_mem hst
    obtain ⟨l, hcc, hlt⟩ := hm st hmem j hj
    exact ⟨l, by simp [hcc], hlt⟩

theorem currInv_interpretOp {m : Machine} (str : Str) (hm : CurrInv m) :
    CurrInv (interpretOp m str).1 := by
  unfold interpretOp
  dsimp only
  repeat' split
  all_goals first
    | exact hm
    | exact currInv_setCurrent _ _ hm
    | exact currInv_setData _ _ hm
    | exact currInv_addState _ hm

theorem currInv_interpret : ∀ (lines : List Str) (m : Machine),
    CurrInv m → CurrInv (interpret m lines).1 := by
  intro lines
  induction lines with
  | nil => intro m hm; exact hm
  | cons a t ih =>
    intro m hm
    simp only [interpret]
    have hm' : CurrInv (interpretOp m a).1 := currInv_interpretOp a hm
    cases h1 : interpretOp m a with
    | mk m' r =>
      rw [h1] at hm'
      cases r with
      | crash => exact hm'
      | ret e =>
        dsimp only
        have hm2 : CurrInv (interpret m' t).1 := ih m' hm'
        cases h2 : interpret m' t with
        | mk m2 r2 =>
          rw [h2] at hm2
          cases r2 with
          | crash => exact hm2
          | ret e2 => exact hm2

/-- C9: in every reachable machine state, every state object that
carries a `curr` index has a `cc` array of children that the index
validly indexes (`curr` is a `Nat`, so `0 ≤ curr` is automatic); every
public operation preserves this. -/
theorem C9_curr_in_bounds : ∀ m : Machine, Reachable m → CurrInv m := by
  intro m h
  induction h with
  | fresh =>
    intro n hn i hi
    simp only [freshMachine, List.mem_singleton] at hn
    subst hn
    simp [rootNode] at hi
  | step_addState h ih => exact currInv_addState _ ih
  | step_addStates h ih => exact currInv_addStates _ ih
  | step_setCurrent h ih => exact currInv_setCurrent _ _ ih
  | step_setData h ih => exact currInv_setData _ _ ih
  | step_makeEmpty h ih =>
    intro n hn i hi
    simp only [makeEmpty, freshMachine, List.mem_singleton] at hn
    subst hn
    simp [rootNode] at hi
  | step_startEditing h ih =>
    unfold startEditing
    split
    · exact ih
    · exact ih
  | step_finishEditing h ih =>
    unfold finishEditing
    split
    · exact ih
    · exact ih
  | step_interpret h ih => exact currInv_interpret _ _ ih

/-- C9 witness: the invariant holds of the concrete reachable machine
obtained by adding `.a/x` to a fresh machine. -/
theorem C9_witness : CurrInv (addState freshMachine (chars ".a/x")).1 :=
  C9_curr_in_bounds _ (Reachable.step_addState Reachable.fresh)

theorem lastIdx_lt {l : Str} {c : Char} {i : Nat} (h : lastIdx l c = some i) :
    i < l.length := by
  unfold lastIdx at h
  cases hf : l.reverse.findIdx? (fun d => d = c) with
  | none => rw [hf] at h; exact absurd h (by simp)
  | some j =>
    rw [hf] at h
    have hj : j < l.reverse.length := findIdx?_lt _ _ j hf
    simp only [List.length_reverse] at hj
    simp only [Option.some.injEq] at h
    omega

theorem maxSep_lt {path : Str} {pos : Nat}
    (h : maxSep (lastIdx path '.') (lastIdx path '/') = some pos) :
    pos < path.length := by
  unfold maxSep at h
  cases h1 : lastIdx path '.' with
  | none =>
    cases h2 : lastIdx path '/' with
    | none => rw [h1, h2] at h; exact absurd h (by simp)
    | some y =>
      rw [h1, h2] at h
      simp only [Option.some.injEq] at h
      subst h
      exact lastIdx_lt h2
  | some x =>
    cases h2 : lastIdx path '/' with
    | none =>
      rw [h1, h2] at h
      simp only [Option.some.injEq] at h
      subst h
      exact lastIdx_lt h1
    | some y =>
      rw [h1, h2] at h
      simp only [Option.some.injEq] at h
      subst h
      have := lastIdx_lt h1
      have := lastIdx_lt h2
      simp only [max_lt_iff]
      omega

theorem addStateN_nil (f : Nat) (m : Machine) : _addStateN f m [] = _addStateN 0 m [] := by
  cases f with
  | zero => rfl
  | succ f => rfl

theorem addStateN_fuel_aux : ∀ N : Nat,
    (∀ (f1 f2 : Nat) (m : Machine) (path : Str), f1 ≤ N →
      2 * path.length ≤ f1 → 2 * path.length ≤ f2 →
      _addStateN f1 m path = _addStateN f2 m path) ∧
    (∀ (f1 f2 : Nat) (m : Machine) (pp : Str) (sep : Char) (name : Str), f1 ≤ N →
      2 * pp.length + 1 ≤ f1 → 2 * pp.length + 1 ≤ f2 →
      _addSubStateN f1 m pp sep name = _addSubStateN f2 m pp sep name) := by
  intro N
  induction N with
  | zero =>
    constructor
    · intro f1 f2 m path h1 h2 h3
      have hf1 : f1 = 0 := Nat.le_zero.mp h1
      have hp : path = [] := by
        have : path.length = 0 := by omega
        exact List.length_eq_zero.mp this
      subst hf1; subst hp
      exact (addStateN_nil f2 m).symm
    · intro f1 f2 m pp sep name h1 h2 h3
      omega
  | succ N ihN =>
    constructor
    · intro f1 f2 m path h1 h2 h3
      by_cases hp : path = []
      · subst hp
        rw [addStateN_nil f1 m, addStateN_nil f2 m]
      · have hlen : 1 ≤ path.length := by
          cases path with
          | nil => exact absurd rfl hp
          | cons a t => simp
        obtain ⟨g1, rfl⟩ : ∃ g, f1 = g + 1 := ⟨f1 - 1, by omega⟩
        obtain ⟨g2, rfl⟩ : ∃ g, f2 = g + 1 := ⟨f2 - 1, by omega⟩
        simp only [_addStateN]
        split
        · rfl
        · split
          · rfl
          · next pos heq =>
            apply ihN.2
            · omega
            · have hpos := maxSep_lt heq
              simp only [List.length_take]
              omega
            · have hpos := maxSep_lt heq
              simp only [List.length_take]
              omega
    · intro f1 f2 m pp sep name h1 h2 h3
      obtain ⟨g1, rfl⟩ : ∃ g, f1 = g + 1 := ⟨f1 - 1, by omega⟩
      obtain ⟨g2, rfl⟩ : ∃ g, f2 = g + 1 := ⟨f2 - 1, by omega⟩
      simp only [_addSubStateN]
      split
      · rfl
      · split
        · rfl
        · split
          · rfl
          · have heq : _addStateN g1 m pp = _addStateN g2 m pp := by
              apply ihN.1
              · omega
              · omega
              · omega
            rw [heq]

/-- Fuel adequacy for `_addState`: any fuel of at least `2 * path.length`
gives the same result, so the fuel used in `_addState` is exact. -/
theorem addStateN_fuel_irrel (f1 f2 : Nat) (m : Machine) (path : Str)
    (h1 : 2 * path.length ≤ f1) (h2 : 2 * path.length ≤ f2) :
    _addStateN f1 m path = _addStateN f2 m path :=
  (addStateN_fuel_aux f1).1 f1 f2 m path (le_refl f1) h1 h2

theorem dropWhile_append_nonws : ∀ (A : Str) (c : Char) (B : Str), jsWsChar c = false →
    (A ++ c :: B).dropWhile jsWsChar = A.dropWhile jsWsChar ++ c :: B := by
  intro A c B hc
  induction A with
  | nil =>
    simp only [List.nil_append, List.dropWhile_nil]
    rw [List.dropWhile_cons_of_neg (by simp [hc])]
  | cons a t ih =>
    by_cases ha : jsWsChar a = true
    · simp only [List.cons_append]
      rw [List.dropWhile_cons_of_pos ha, List.dropWhile_cons_of_pos ha]
      exact ih
    · simp only [List.cons_append]
      rw [List.dropWhile_cons_of_neg ha, List.dropWhile_cons_of_neg ha]
      simp

theorem length_dropWhile_append_ge : ∀ (A : Str) (c : Char) (B : Str), jsWsChar c = false →
    B.length + 1 ≤ ((A ++ c :: B).dropWhile jsWsChar).length := by
  intro A c B hc
  induction A with
  | nil =>
    simp only [List.nil_append]
    rw [List.dropWhile_cons_of_neg (by simp [hc])]
    simp
  | cons a t ih =>
    by_cases ha : jsWsChar a = true
    · simp only [List.cons_append]
      rw [List.dropWhile_cons_of_pos ha]
      exact ih
    · simp only [List.cons_append]
      rw [List.dropWhile_cons_of_neg ha]
      simp only [List.length_cons, List.length_append, List.length_cons]
      omega

theorem jsTrim_len_ge (path : Str) (c : Char) (name : Str) (hc : jsWsChar c = false) :
    nlen path + 1 ≤ (jsTrim (path ++ c :: name)).length := by
  unfold jsTrim nlen
  rw [dropWhile_append_nonws path c name hc]
  rw [List.length_reverse]
  have hrev : (path.dropWhile jsWsChar ++ c :: name).reverse
      = name.reverse ++ c :: (path.dropWhile jsWsChar).reverse := by
    rw [List.reverse_append, List.reverse_cons]
    simp
  rw [hrev]
  have := length_dropWhile_append_ge name.reverse c (path.dropWhile jsWsChar).reverse hc
  simpa using this

theorem nlen_append (path : Str) (c : Char) (name : Str) (hc : jsWsChar c = false) :
    nlen path + 1 ≤ nlen (path ++ c :: name) := by
  unfold nlen
  rw [dropWhile_append_nonws path c name hc]
  simp only [List.length_append, List.length_cons]
  omega

theorem treeGet_le_maxKeyLen : ∀ (t : List (Str × Nat)) (k : Str) (v : Nat),
    treeGet t k = some v → k.length ≤ maxKeyLen t := by
  intro t
  induction t with
  | nil => intro k v h; simp [treeGet] at h
  | cons kv rest ih =>
    intro k v h
    match kv with
    | (k0, v0) =>
      simp only [treeGet] at h
      by_cases hk : k0 = k
      · subst hk
        simp only [maxKeyLen, List.foldr_cons]
        exact le_max_left _ _
      · rw [if_neg hk] at h
        have := ih k v h
        simp only [maxKeyLen, List.foldr_cons]
        exact le_trans this (le_max_right _ _)

theorem getState_nlen_bound {m : Machine} {path : Str} {c : Char} {name : Str} {st : Node}
    (hc : jsWsChar c = false)
    (h : getState m (path ++ c :: name) = some st) :
    nlen path + 1 ≤ maxKeyLen m.tree := by
  unfold getState getStateId at h
  cases hn : normalizePath (path ++ c :: name) with
  | none => rw [hn] at h; exact absurd h (by simp)
  | some q =>
    rw [hn] at h
    dsimp only at h
    cases ht : treeGet m.tree q with
    | none => rw [ht] at h; exact absurd h (by simp)
    | some id =>
      have hqlen : q.length ≤ maxKeyLen m.tree := treeGet_le_maxKeyLen _ _ _ ht
      unfold normalizePath at hn
      rw [if_neg (by simp : ¬ (path ++ c :: name) = [])] at hn
      by_cases ha : (path ++ c :: name).any isPathChar = true
      · rw [if_pos ha] at hn
        injection hn with hn
        subst hn
        have hlow : (jsLower (jsTrim (path ++ c :: name))).length
            = (jsTrim (path ++ c :: name)).length := by simp [jsLower]
        have hlen := jsTrim_len_ge path c name hc
        omega
      · rw [if_neg ha] at hn; exact absurd hn (by simp)

theorem walkAllStep_congr (r1 r2 : Machine → Str → Node → List Str)
    (m : Machine) (path : Str) (st : Node)
    (h : ∀ (sep : Char) (name : Str) (child : Node), jsWsChar sep = false →
      getState m (path ++ sep :: name) = some child →
      r1 m (path ++ sep :: name) child = r2 m (path ++ sep :: name) child) :
    walkAllStep r1 m path st = walkAllStep r2 m path st := by
  unfold walkAllStep
  cases st.cc with
  | none => rfl
  | some l =>
    dsimp only
    congr 1
    funext name
    cases hg : getState m (path ++ (if st.curr.isSome then '/' else '.') :: name) with
    | none => rfl
    | some child =>
      have hws : jsWsChar (if st.curr.isSome then '/' else '.') = false := by
        split <;> decide
      exact congrArg (List.cons _) (h _ name child hws hg)

theorem walkCurrentStep_congr (r1 r2 : Machine → Str → Node → List Str)
    (m : Machine) (path : Str) (st : Node)
    (h : ∀ (sep : Char) (name : Str) (child : Node), jsWsChar sep = false →
      getState m (path ++ sep :: name) = some child →
      r1 m (path ++ sep :: name) child = r2 m (path ++ sep :: name) child) :
    walkCurrentStep r1 m path st = walkCurrentStep r2 m path st := by
  unfold walkCurrentStep
  cases st.cc with
  | none => rfl
  | some l =>
    dsimp only
    cases st.curr with
    | some c =>
      dsimp only
      cases l.get? c with
      | none => rfl
      | some name =>
        dsimp only
        by_cases hname : name = []
        · simp [hname]
        · rw [if_neg hname, if_neg hname]
          cases hg : getState m (path ++ '/' :: name) with
          | none => rfl
          | some child => exact congrArg (List.cons _) (h '/' name child (by decide) hg)
    | none =>
      dsimp only
      congr 1
      funext name
      cases hg : getState m (path ++ '.' :: name) with
      | none => rfl
      | some child => exact congrArg (List.cons _) (h '.' name child (by decide) hg)

/-- Fuel stability for the full walk: any two fuels satisfying the
`maxKeyLen`-based bound give the same traversal, so the fuel used in
`getAllPaths` (namely `fuelBound`, with `nlen "" = 0`) computes the
exact unbounded JS recursion, which can only descend while the
normalized child path is a key of the map. -/
theorem walkAllN_stable : ∀ (f1 f2 : Nat) (m : Machine) (path : Str) (st : Node),
    maxKeyLen m.tree + 1 ≤ f1 + nlen path → maxKeyLen m.tree + 1 ≤ f2 + nlen path →
    walkAllN f1 m path st = walkAllN f2 m path st := by
  intro f1
  induction f1 using Nat.strong_induction_on with
  | _ f1 ih =>
    intro f2 m path st h1 h2
    match f1, f2 with
    | 0, 0 => rfl
    | 0, g2 + 1 =>
      simp only [walkAllN]
      apply walkAllStep_congr
      intro sep name child hws hg
      have := getState_nlen_bound hws hg
      omega
    | g1 + 1, 0 =>
      simp only [walkAllN]
      apply walkAllStep_congr
      intro sep name child hws hg
      have := getState_nlen_bound hws hg
      omega
    | g1 + 1, g2 + 1 =>
      simp only [walkAllN]
      apply walkAllStep_congr
      intro sep name child hws hg
      have hb := getState_nlen_bound hws hg
      have hn := nlen_append path sep name hws
      apply ih g1 (by omega) g2
      · omega
      · omega

/-- Fuel stability for the active-path walk, exactly as for `walkAllN`. -/
theorem walkCurrentN_stable : ∀ (f1 f2 : Nat) (m : Machine) (path : Str) (st : Node),
    maxKeyLen m.tree + 1 ≤ f1 + nlen path → maxKeyLen m.tree + 1 ≤ f2 + nlen path →
    walkCurrentN f1 m path st = walkCurrentN f2 m path st := by
  intro f1
  induction f1 using Nat.strong_induction_on with
  | _ f1 ih =>
    intro f2 m path st h1 h2
    match f1, f2 with
    | 0, 0 => rfl
    | 0, g2 + 1 =>
      simp only [walkCurrentN]
      apply walkCurrentStep_congr
      intro sep name child hws hg
      have := getState_nlen_bound hws hg
      omega
    | g1 + 1, 0 =>
      simp only [walkCurrentN]
      apply walkCurrentStep_congr
      intro sep name child hws hg
      have := getState_nlen_bound hws hg
      omega
    | g1 + 1, g2 + 1 =>
      simp only [walkCurrentN]
      apply walkCurrentStep_congr
      intro sep name child hws hg
      have hb := getState_nlen_bound hws hg
      have hn := nlen_append path sep name hws
      apply ih g1 (by omega) g2
      · omega
      · omega
